import Mathlib

/-!
Verification of the sound-communication repository's transport, chunking,
FEC-wrapping and session-crypto layers, as shallowly embedded Lean
definitions translated from the Python sources (`src/alternative.py`,
`src/stream.py`, `src/cryptoec.py`, `src/error_corrector.py`).

Bytes are modelled as natural numbers (values `< 256` on the wire), byte
strings as `List Nat`, and Python `int` counters that can be negative as
`Int`.  Stateful loops are embedded as recursion over explicit event lists
or fuel.
-/

namespace SoundComm

/-! ## Little-endian integer packing (`struct.pack`) -/

/-- `struct.pack('<I', n)`: 4-byte little-endian encoding. -/
def u32le (n : ℕ) : List ℕ :=
  [n % 256, n / 256 % 256, n / 256 ^ 2 % 256, n / 256 ^ 3 % 256]

/-- `struct.unpack('<I', b)[0]`: value of a 4-byte little-endian field. -/
def u32leVal (b : List ℕ) : ℕ :=
  b.getD 0 0 + b.getD 1 0 * 256 + b.getD 2 0 * 256 ^ 2 + b.getD 3 0 * 256 ^ 3

/-- `struct.pack('<Q', n)`: 8-byte little-endian encoding. -/
def u64le (n : ℕ) : List ℕ :=
  [n % 256, n / 256 % 256, n / 256 ^ 2 % 256, n / 256 ^ 3 % 256,
   n / 256 ^ 4 % 256, n / 256 ^ 5 % 256, n / 256 ^ 6 % 256, n / 256 ^ 7 % 256]

/-- `struct.unpack('<Q', b)[0]`. -/
def u64leVal (b : List ℕ) : ℕ :=
  b.getD 0 0 + b.getD 1 0 * 256 + b.getD 2 0 * 256 ^ 2 + b.getD 3 0 * 256 ^ 3 +
  b.getD 4 0 * 256 ^ 4 + b.getD 5 0 * 256 ^ 5 + b.getD 6 0 * 256 ^ 6 +
  b.getD 7 0 * 256 ^ 7

theorem u32le_length (n : ℕ) : (u32le n).length = 4 := rfl

theorem u64le_length (n : ℕ) : (u64le n).length = 8 := rfl

theorem u32leVal_u32le (n : ℕ) (h : n < 256 ^ 4) : u32leVal (u32le n) = n := by
  simp [u32le, u32leVal]
  omega

theorem u64leVal_u64le (n : ℕ) (h : n < 256 ^ 8) : u64leVal (u64le n) = n := by
  simp [u64le, u64leVal]
  omega

theorem u64le_injOn {m n : ℕ} (hm : m < 256 ^ 8) (hn : n < 256 ^ 8)
    (h : u64le m = u64le n) : m = n := by
  have := congrArg u64leVal h
  rwa [u64leVal_u64le m hm, u64leVal_u64le n hn] at this

/-! ## Protocol flag constants (`ReliableTransceiver`) -/

def SYN : ℕ := 1
def ACK : ℕ := 2
def RTR : ℕ := 4

/-! ## `BufferedStream` (`src/stream.py`)

`output_buffer` is a Python list of chunks; `write` appends with
`list.append`.  `read(length, block=False)` returns exactly `length` bytes
when the input buffer holds at least that many, and otherwise returns the
whole buffer (possibly empty). -/

/-- `BufferedStream.write`: `self.output_buffer.append(data)`. -/
def bufferedWrite (buf : List (List ℕ)) (data : List ℕ) : List (List ℕ) :=
  buf ++ [data]

/-- `BufferedStream.read(length, block=False)`: returns the bytes read and
the remaining input buffer. -/
def bufRead (buf : List ℕ) (length : ℕ) : List ℕ × List ℕ :=
  if length ≤ buf.length then (buf.take length, buf.drop length)
  else (buf, [])

theorem bufRead_length_le (buf : List ℕ) (length : ℕ) :
    (bufRead buf length).1.length ≤ length := by
  unfold bufRead
  split
  · simp
  · simp
    omega

/-! ## C10 — writer thread consumes `output_buffer` in LIFO order

`AlternativeStream._try_write` does `data = self.output_buffer.pop()`, a
Python `list.pop()` with no index, which removes the LAST element. -/

/-- `AlternativeStream._try_write`, restricted to its buffer effect: if the
output buffer is empty the write turn is skipped (`none`); otherwise
`output_buffer.pop()` removes and returns the last chunk. -/
def tryWritePop (buf : List (List ℕ)) : Option (List ℕ × List (List ℕ)) :=
  match buf.getLast? with
  | none => none
  | some data => some (data, buf.dropLast)

/-- Repeatedly run `_try_write` until the output buffer is empty (or fuel
runs out), collecting the chunks in the order they are handed to the modem. -/
def drainAux : ℕ → List (List ℕ) → List (List ℕ)
  | 0, _ => []
  | fuel + 1, buf =>
    match tryWritePop buf with
    | none => []
    | some (d, rest) => d :: drainAux fuel rest

/-- All chunks the writer thread hands to the modem, in emission order. -/
def drainOutput (buf : List (List ℕ)) : List (List ℕ) :=
  drainAux buf.length buf

theorem drainAux_eq_reverse (fuel : ℕ) :
    ∀ l : List (List ℕ), l.length ≤ fuel → drainAux fuel l = l.reverse := by
  induction fuel with
  | zero =>
    intro l hl
    rw [List.length_eq_zero.mp (Nat.le_zero.mp hl)]
    rfl
  | succ fuel ih =>
    intro l hl
    induction l using List.reverseRecOn with
    | nil => rfl
    | append_singleton m a _ =>
      rw [drainAux]
      simp only [tryWritePop, List.getLast?_concat, List.dropLast_concat]
      rw [ih m (by simp at hl; omega)]
      simp

theorem drainOutput_eq_reverse (l : List (List ℕ)) :
    drainOutput l = l.reverse :=
  drainAux_eq_reverse l.length l le_rfl

/-- C10: with more than one chunk pending, `_try_write` removes the most
recently appended chunk, and repeated consumption yields the reverse of the
append order. -/
theorem c10_lifo_output (buf : List (List ℕ)) (d : List ℕ) (chunks : List (List ℕ)) :
    tryWritePop (bufferedWrite buf d) = some (d, buf) ∧
    drainOutput (chunks.foldl bufferedWrite []) = chunks.reverse := by
  constructor
  · simp [tryWritePop, bufferedWrite]
  · have : ∀ init : List (List ℕ), chunks.foldl bufferedWrite init = init ++ chunks := by
      induction chunks with
      | nil => simp
      | cons c cs ih => intro init; simp [bufferedWrite, ih]
    rw [this, List.nil_append, drainOutput_eq_reverse]

/-! ## Sequence counters (`ReliableTransceiver`)

`last_sent_packet` and `last_received_packet` start at `-1`.
`write_insecure` does `last_sent_packet += 1; last_sent_packet %= 256`
(lines 356-357 of `alternative.py`); `read_insecure` does only
`last_received_packet += 1` (line 263), with no reduction mod 256. -/

/-- `last_received_packet` after `n` calls of `read_insecure` (each call
increments once at entry; the code applies no modulus). -/
def recvCounterAfter : ℕ → ℤ
  | 0 => -1
  | n + 1 => recvCounterAfter n + 1

/-- `last_sent_packet` after `n` calls of `write_insecure`
(increment followed by `%= 256`). -/
def sentSeqAfter : ℕ → ℤ
  | 0 => -1
  | n + 1 => (sentSeqAfter n + 1) % 256

theorem recvCounterAfter_eq (n : ℕ) : recvCounterAfter n = (n : ℤ) - 1 := by
  induction n with
  | zero => rfl
  | succ n ih => rw [recvCounterAfter, ih]; push_cast; ring

theorem sentSeqAfter_eq (n : ℕ) : sentSeqAfter (n + 1) = (n : ℤ) % 256 := by
  induction n with
  | zero => rfl
  | succ n ih => rw [sentSeqAfter, ih]; push_cast; omega

/-- Classification of the incoming 1-byte seq in `read_insecure`
(lines 290-315): strictly greater than the (already incremented) expected
counter aborts, strictly smaller is treated as an already-ACKed duplicate,
equality falls through to the payload read. -/
inductive SeqAction where
  | accept
  | dup
  | abort
deriving DecidableEq

/-- The three-way comparison of `batch_id` against `last_received_packet`
performed by `read_insecure` after its entry increment. -/
def seqClassify (lastReceivedPacket : ℤ) (batchId : ℕ) : SeqAction :=
  if (batchId : ℤ) > lastReceivedPacket then .abort
  else if (batchId : ℤ) < lastReceivedPacket then .dup
  else .accept

/-- The acceptance condition as the spec words it, for refinement
comparison with `seqClassify`: a DATA is accepted iff its seq equals
`last_received_seq + 1` modulo 256. -/
def specSeqAccepts (lastReceivedSeq : ℤ) (batchId : ℕ) : Prop :=
  (batchId : ℤ) = (lastReceivedSeq + 1) % 256

instance (l : ℤ) (b : ℕ) : Decidable (specSeqAccepts l b) := by
  unfold specSeqAccepts; infer_instance

/-- C1: the mod-256 wraparound acceptance fails.  The sender's wire seq of
the 257th DATA wraps to 0, the receiver's expected counter reaches 256
(never reduced mod 256), the spec-side condition accepts seq 0, but the
code classifies seq 0 as an already-ACKed duplicate — and indeed no 1-byte
wire seq can ever be accepted again. -/
theorem c1_seq_wraparound_bug :
    sentSeqAfter 257 = 0 ∧
    recvCounterAfter 257 = 256 ∧
    specSeqAccepts (recvCounterAfter 256) 0 ∧
    seqClassify (recvCounterAfter 257) 0 = .dup ∧
    seqClassify (recvCounterAfter 257) 0 ≠ .accept ∧
    (∀ b : Fin 256, seqClassify (recvCounterAfter 257) b.val ≠ .accept) := by
  refine ⟨?_, ?_, ?_, ?_, ?_, ?_⟩
  · rw [sentSeqAfter_eq]; decide
  · rw [recvCounterAfter_eq]; decide
  · rw [recvCounterAfter_eq]; decide
  · rw [recvCounterAfter_eq]; decide
  · rw [recvCounterAfter_eq]; decide
  · intro b
    rw [recvCounterAfter_eq]
    have hb := b.isLt
    unfold seqClassify
    split_ifs with h1 h2
    · exact fun h => SeqAction.noConfusion h
    · exact fun h => SeqAction.noConfusion h
    · exfalso
      omega

/-! ## C4 — `read_insecure` header phase and payload phase

The polling loops of `read_insecure` (lines 269-352) are embedded as
recursion over a finite list of poll events.  Each event says whether the
`abort_timeout` test at the top of the loop body fired at this poll (the
start-time adjustments are tracked in the state) and which bytes the modem
thread appended to `input_buffer` since the previous poll. -/

structure ReadEvent where
  timedOut : Bool
  arrivals : List ℕ
deriving DecidableEq

/-- The observable state threaded through `read_insecure`: the stream's
input buffer, the packets passed to `stream.write` (ACKs), and the number
of 1-second bumps applied to `start_time` in the duplicate branch. -/
structure ReadSt where
  buffer : List ℕ
  writes : List (List ℕ)
  startAdj : ℕ
deriving DecidableEq

inductive HeaderOut where
  /-- `break` at line 315: seq matched, payload phase begins. -/
  | accepted (batchId : ℕ) (st : ReadSt) (rest : List ReadEvent)
  /-- `ConnectionAbortedError` raised (timeout at line 274 or skew at 294). -/
  | aborted (st : ReadSt)
  /-- The finite observation window ended while the code was still polling. -/
  | starved (st : ReadSt)
deriving DecidableEq

/-- Header phase of `read_insecure` (lines 269-315): poll for the 1-byte
seq, then classify it against the incremented `last_received_packet`. -/
def readHeaderLoop (expected : ℤ) : List ReadEvent → ReadSt → HeaderOut
  | [], st => .starved st
  | e :: es, st =>
    if e.timedOut then .aborted st
    else
      let buf := st.buffer ++ e.arrivals
      let taken := (bufRead buf 1).1
      let rest := (bufRead buf 1).2
      if taken.length = 0 then
        readHeaderLoop expected es { st with buffer := rest }
      else
        let batchId := taken.getD 0 0
        if (batchId : ℤ) > expected then .aborted { st with buffer := rest }
        else if (batchId : ℤ) < expected then
          -- sleep(1.0); start_time += 1.0; clear_input_buffer();
          -- write(pack('<BB', batch_id, ACK)); continue
          readHeaderLoop expected es
            ⟨[], st.writes ++ [[batchId, ACK]], st.startAdj + 1⟩
        else .accepted batchId { st with buffer := rest } es

inductive ReadOut where
  /-- Normal return with `send_ack=True`: the ACK was written first. -/
  | delivered (result : List ℕ) (st : ReadSt)
  /-- Return with `send_ack=False`: `(ack_packet, result)`. -/
  | deliveredNoAck (ack : List ℕ) (result : List ℕ) (st : ReadSt)
  | aborted (st : ReadSt)
  | starved (st : ReadSt)
deriving DecidableEq

/-- Payload phase of `read_insecure` (lines 319-352), entered with
`size > 0`.  Reads up to `size` bytes per poll; when the count reaches
zero, writes the ACK when `send_ack` and returns the accumulated bytes. -/
def readPayloadLoop (ackPacket : List ℕ) (sendAck : Bool) :
    List ReadEvent → ℕ → List ℕ → ReadSt → ReadOut
  | [], _, _, st => .starved st
  | e :: es, size, result, st =>
    if e.timedOut then .aborted st
    else
      let buf := st.buffer ++ e.arrivals
      let taken := (bufRead buf size).1
      let rest := (bufRead buf size).2
      let result := result ++ taken
      let size := size - taken.length
      if size = 0 then
        if sendAck then
          .delivered result { st with buffer := rest, writes := st.writes ++ [ackPacket] }
        else
          .deliveredNoAck ackPacket result { st with buffer := rest }
      else
        readPayloadLoop ackPacket sendAck es size result { st with buffer := rest }

/-- `ReliableTransceiver.read_insecure` for a positive `size` (a
non-positive size raises `ValueError` up front): increment
`last_received_packet`, run the header phase, then the payload phase with
`ack_packet = pack('<BB', batch_id, ACK)`. -/
def readInsecure (lastReceived : ℤ) (size : ℕ) (sendAck : Bool)
    (events : List ReadEvent) (st : ReadSt) : ReadOut :=
  match readHeaderLoop (lastReceived + 1) events st with
  | .aborted st' => .aborted st'
  | .starved st' => .starved st'
  | .accepted batchId st' rest =>
    readPayloadLoop [batchId, ACK] sendAck rest size [] st'

theorem readHeaderLoop_accepted_eq (expected : ℤ) :
    ∀ (events : List ReadEvent) (st : ReadSt) (b : ℕ) (st₁ : ReadSt)
      (es₁ : List ReadEvent),
      readHeaderLoop expected events st = .accepted b st₁ es₁ → (b : ℤ) = expected := by
  intro events
  induction events with
  | nil => intro st b st₁ es₁ h; exact HeaderOut.noConfusion h
  | cons e es ih =>
    intro st b st₁ es₁ h
    rw [readHeaderLoop] at h
    by_cases ht : e.timedOut
    · rw [if_pos ht] at h; exact HeaderOut.noConfusion h
    · rw [if_neg ht] at h
      simp only at h
      by_cases h0 : (bufRead (st.buffer ++ e.arrivals) 1).1.length = 0
      · rw [if_pos h0] at h
        exact ih _ b st₁ es₁ h
      · rw [if_neg h0] at h
        by_cases h1 : (((bufRead (st.buffer ++ e.arrivals) 1).1.getD 0 0 : ℕ) : ℤ) > expected
        · rw [if_pos h1] at h
          exact HeaderOut.noConfusion h
        · rw [if_neg h1] at h
          by_cases h2 : (((bufRead (st.buffer ++ e.arrivals) 1).1.getD 0 0 : ℕ) : ℤ) < expected
          · rw [if_pos h2] at h
            exact ih _ b st₁ es₁ h
          · rw [if_neg h2] at h
            cases h
            omega

/-- C4: the three-way policy of `read_insecure` on the incoming seq byte.
With the next available byte `b`: strictly greater than expected aborts the
call; strictly smaller emits `ACK(seq=b)`, clears the input buffer, bumps
the start time by the 1-second sleep and resumes polling without
delivering anything; the header phase completes (and hence payload bytes
are delivered) only when the seq equals the expected value. -/
theorem c4_read_policy (expected lastReceived : ℤ) (e : ReadEvent)
    (es events : List ReadEvent) (st st' : ReadSt) (b size : ℕ)
    (sendAck : Bool) (r : List ℕ) :
    (¬ e.timedOut → (st.buffer ++ e.arrivals).head? = some b →
      ((expected < b → readHeaderLoop expected (e :: es) st =
          .aborted { st with buffer := (st.buffer ++ e.arrivals).tail }) ∧
       ((b : ℤ) < expected → readHeaderLoop expected (e :: es) st =
          readHeaderLoop expected es
            ⟨[], st.writes ++ [[b, ACK]], st.startAdj + 1⟩))) ∧
    (∀ (st₁ : ReadSt) (es₁ : List ReadEvent),
      readHeaderLoop expected events st = .accepted b st₁ es₁ → (b : ℤ) = expected) ∧
    (readInsecure lastReceived size sendAck events st = .delivered r st' →
      ∃ (c : ℕ) (st₁ : ReadSt) (es₁ : List ReadEvent),
        readHeaderLoop (lastReceived + 1) events st = .accepted c st₁ es₁ ∧
        (c : ℤ) = lastReceived + 1) := by
  refine ⟨?_, readHeaderLoop_accepted_eq expected events st b, ?_⟩
  · intro ht hb
    have hbuf : st.buffer ++ e.arrivals ≠ [] := by
      intro hnil; rw [hnil] at hb; exact Option.noConfusion hb
    have hlen : 1 ≤ (st.buffer ++ e.arrivals).length := by
      cases hl : st.buffer ++ e.arrivals with
      | nil => exact absurd hl hbuf
      | cons x xs => simp
    have hread : bufRead (st.buffer ++ e.arrivals) 1 =
        ((st.buffer ++ e.arrivals).take 1, (st.buffer ++ e.arrivals).drop 1) := by
      unfold bufRead; rw [if_pos hlen]
    have htake : (st.buffer ++ e.arrivals).take 1 = [b] := by
      cases hl : st.buffer ++ e.arrivals with
      | nil => exact absurd hl hbuf
      | cons x xs =>
        rw [hl] at hb
        simp at hb
        simp [hb]
    constructor
    · intro hgt
      rw [readHeaderLoop, if_neg ht]
      simp only [hread, htake, List.getD_cons_zero]
      split_ifs with hlen
      · simp at hlen
      · simp [List.drop_one]
    · intro hlt
      rw [readHeaderLoop, if_neg ht]
      simp only [hread, htake, List.getD_cons_zero]
      split_ifs with hlen hcmp
      · simp at hlen
      · exact absurd hcmp (by omega)
      · simp
  · intro hdel
    unfold readInsecure at hdel
    split at hdel
    · exact ReadOut.noConfusion hdel
    · exact ReadOut.noConfusion hdel
    · rename_i c st₁ es₁ hacc
      exact ⟨c, st₁, es₁, hacc, readHeaderLoop_accepted_eq _ events st c st₁ es₁ hacc⟩

/-- Witness for `c4_read_policy` at concrete inputs: expected seq 5, one
poll delivering seq byte 3 (a duplicate), another delivering seq byte 9
(skew). -/
theorem c4_read_policy_witness :
    (readHeaderLoop 5 [⟨false, [9]⟩] ⟨[], [], 0⟩ = .aborted ⟨[], [], 0⟩ ∧
     readHeaderLoop 5 [⟨false, [3]⟩] ⟨[], [], 0⟩ =
       readHeaderLoop 5 [] ⟨[], [[3, ACK]], 1⟩) := by
  have h9 := (c4_read_policy 5 0 ⟨false, [9]⟩ [] [] ⟨[], [], 0⟩ ⟨[], [], 0⟩ 9 1
    true []).1 (by decide) (by decide)
  have h3 := (c4_read_policy 5 0 ⟨false, [3]⟩ [] [] ⟨[], [], 0⟩ ⟨[], [], 0⟩ 3 1
    true []).1 (by decide) (by decide)
  exact ⟨h9.1 (by decide), h3.2 (by decide)⟩

/-! ## C2 — `write_insecure` (lines 354-424)

The sender increments `last_sent_packet` mod 256, transmits
`pack('<B', seq) + data`, then polls for a 2-byte confirmation,
retransmitting on `resend_timeout` expiry or on a flags/seq mismatch and
raising `ConnectionAbortedError` once `retries` reaches `abort_retries`. -/

structure WEvent where
  /-- `time_now - last_resend_time >= resend_timeout` at this poll. -/
  timedOut : Bool
  /-- Bytes appended to `input_buffer` by the modem since the last poll. -/
  arrivals : List ℕ
deriving DecidableEq

structure WSt where
  buffer : List ℕ
  result : List ℕ
  /-- Remaining confirmation bytes (`size`), a Python `int`. -/
  size : ℤ
  retries : ℕ
  /-- Packets passed to `stream.write`, in order. -/
  writes : List (List ℕ)
deriving DecidableEq

inductive WriteOut where
  /-- Normal `return` after a matching ACK (line 422). -/
  | ok (result : List ℕ) (writes : List (List ℕ))
  /-- The `size < 0` `break` at line 396: the function would return without
  any ACK verification. -/
  | overRead (result : List ℕ) (writes : List (List ℕ))
  /-- `ConnectionAbortedError` with the final retry count. -/
  | aborted (retries : ℕ) (writes : List (List ℕ))
  /-- The finite observation window ended while the code was still polling. -/
  | starved (st : WSt)
deriving DecidableEq

/-- The read/accumulate/verify part of one confirmation-loop iteration
(lines 385-424): `inl` means the loop continues with the new state. -/
def writeReadPhase (lastSent : ℕ) (fullData : List ℕ) (abortRetries : ℕ)
    (st : WSt) : WSt ⊕ WriteOut :=
  let taken := (bufRead st.buffer st.size.toNat).1
  let rest := (bufRead st.buffer st.size.toNat).2
  let result := st.result ++ taken
  let size : ℤ := st.size - taken.length
  if size ≤ 0 then
    if size < 0 then .inr (.overRead result st.writes)
    else
      let r0 := result.getD 0 0
      let r1 := result.getD 1 0
      if r1 ≠ ACK ∨ r0 ≠ lastSent then
        let writes := st.writes ++ [fullData]
        let retries := st.retries + 1
        if retries ≥ abortRetries then .inr (.aborted retries writes)
        else .inl ⟨rest, result, size, retries, writes⟩
      else .inr (.ok result st.writes)
  else .inl ⟨rest, result, size, st.retries, st.writes⟩

/-- The confirmation loop of `write_insecure` (lines 369-424).  Arrived
bytes join the input buffer at the top of the iteration; on a resend
timeout the packet is retransmitted and the retry counter checked before
the read phase of the same iteration. -/
def writeLoop (lastSent : ℕ) (fullData : List ℕ) (abortRetries : ℕ) :
    List WEvent → WSt → WriteOut
  | [], st => .starved st
  | e :: es, st =>
    if e.timedOut then
      if st.retries + 1 ≥ abortRetries then
        .aborted (st.retries + 1) (st.writes ++ [fullData])
      else
        match writeReadPhase lastSent fullData abortRetries
            ⟨st.buffer ++ e.arrivals, st.result, st.size, st.retries + 1,
             st.writes ++ [fullData]⟩ with
        | .inr out => out
        | .inl st₃ => writeLoop lastSent fullData abortRetries es st₃
    else
      match writeReadPhase lastSent fullData abortRetries
          ⟨st.buffer ++ e.arrivals, st.result, st.size, st.retries, st.writes⟩ with
      | .inr out => out
      | .inl st₃ => writeLoop lastSent fullData abortRetries es st₃

/-- The wire seq byte chosen by `write_insecure`:
`last_sent_packet += 1; last_sent_packet %= 256`. -/
def wSeq (lastSentPrev : ℤ) : ℕ := ((lastSentPrev + 1) % 256).toNat

/-- `ReliableTransceiver.write_insecure`: increment the seq counter mod 256,
transmit `pack('<B', seq) + data`, then run the confirmation loop.  Returns
the outcome and the updated `last_sent_packet`. -/
def writeInsecure (lastSentPrev : ℤ) (data : List ℕ) (abortRetries : ℕ)
    (events : List WEvent) (buffer0 : List ℕ) : WriteOut × ℤ :=
  let lastSent := wSeq lastSentPrev
  let fullData := lastSent :: data
  (writeLoop lastSent fullData abortRetries events ⟨buffer0, [], 2, 0, [fullData]⟩,
   (lastSentPrev + 1) % 256)

/-- Invariant of the confirmation loop: the accumulated bytes and the
remaining count total 2, the count is non-negative, the retry budget is not
yet exhausted, and every transmitted packet is the seq-prefixed payload. -/
def WInv (fullData : List ℕ) (abortRetries : ℕ) (st : WSt) : Prop :=
  st.size + st.result.length = 2 ∧ 0 ≤ st.size ∧ st.retries < abortRetries ∧
    ∀ p ∈ st.writes, p = fullData

theorem list_eq_pair (l : List ℕ) (h : l.length = 2) :
    l = [l.getD 0 0, l.getD 1 0] := by
  match l with
  | [a, b] => rfl

theorem writeReadPhase_spec (lastSent : ℕ) (fullData : List ℕ)
    (abortRetries : ℕ) (st : WSt) (hinv : WInv fullData abortRetries st) :
    (∀ st', writeReadPhase lastSent fullData abortRetries st = .inl st' →
      WInv fullData abortRetries st') ∧
    (∀ r w, writeReadPhase lastSent fullData abortRetries st ≠ .inr (.overRead r w)) ∧
    (∀ r w, writeReadPhase lastSent fullData abortRetries st = .inr (.ok r w) →
      r = [lastSent, ACK] ∧ ∀ p ∈ w, p = fullData) ∧
    (∀ n w, writeReadPhase lastSent fullData abortRetries st = .inr (.aborted n w) →
      n = abortRetries ∧ ∀ p ∈ w, p = fullData) := by
  obtain ⟨hsum, hpos, hret, hw⟩ := hinv
  have htk := bufRead_length_le st.buffer st.size.toNat
  have hsz : (0 : ℤ) ≤ st.size - ((bufRead st.buffer st.size.toNat).1.length : ℤ) := by
    omega
  have hwapp : ∀ p ∈ st.writes ++ [fullData], p = fullData := by
    intro p hp
    rcases List.mem_append.mp hp with h | h
    · exact hw p h
    · simpa using List.mem_singleton.mp h
  unfold writeReadPhase
  simp only
  split_ifs with h0 h1 h2 h3
  · -- size ≤ 0 and size < 0: contradicts hsz
    exact absurd h1 (by omega)
  · -- verification failure, retry budget exhausted: aborted
    refine ⟨?_, ?_, ?_, ?_⟩
    · intro st' hst'; simp at hst'
    · intro r w hcon; simp at hcon
    · intro r w hcon; simp at hcon
    · intro n w hcon
      obtain ⟨hn, hw'⟩ := WriteOut.aborted.inj (Sum.inr.inj hcon)
      refine ⟨by omega, ?_⟩
      intro p hp
      rw [← hw'] at hp
      exact hwapp p hp
  · -- verification failure, keep polling with incremented retries
    refine ⟨?_, ?_, ?_, ?_⟩
    · intro st' hst'
      obtain rfl : st' = _ := (Sum.inl.inj hst').symm
      unfold WInv
      dsimp only
      refine ⟨by simp; omega, hsz, by omega, hwapp⟩
    · intro r w hcon; simp at hcon
    · intro r w hcon; simp at hcon
    · intro n w hcon; simp at hcon
  · -- verification success: return
    refine ⟨?_, ?_, ?_, ?_⟩
    · intro st' hst'; simp at hst'
    · intro r w hcon; simp at hcon
    · intro r w hcon
      obtain ⟨hr, hw'⟩ := WriteOut.ok.inj (Sum.inr.inj hcon)
      have hlen : (st.result ++ (bufRead st.buffer st.size.toNat).1).length = 2 := by
        simp
        omega
      push_neg at h2
      constructor
      · rw [← hr, list_eq_pair _ hlen, h2.2, h2.1]
      · intro p hp; rw [← hw'] at hp; exact hw p hp
    · intro n w hcon; simp at hcon
  · -- size still positive: keep polling
    refine ⟨?_, ?_, ?_, ?_⟩
    · intro st' hst'
      obtain rfl : st' = _ := (Sum.inl.inj hst').symm
      unfold WInv
      dsimp only
      refine ⟨by simp; omega, hsz, hret, hw⟩
    · intro r w hcon; simp at hcon
    · intro r w hcon; simp at hcon
    · intro n w hcon; simp at hcon

theorem writeLoop_spec (lastSent : ℕ) (fullData : List ℕ) (abortRetries : ℕ) :
    ∀ (events : List WEvent) (st : WSt), WInv fullData abortRetries st →
      (∀ r w, writeLoop lastSent fullData abortRetries events st = .ok r w →
        r = [lastSent, ACK] ∧ ∀ p ∈ w, p = fullData) ∧
      (∀ r w, writeLoop lastSent fullData abortRetries events st ≠ .overRead r w) ∧
      (∀ n w, writeLoop lastSent fullData abortRetries events st = .aborted n w →
        n = abortRetries ∧ ∀ p ∈ w, p = fullData) := by
  intro events
  induction events with
  | nil =>
    intro st _
    refine ⟨?_, ?_, ?_⟩
    · intro r w h; exact WriteOut.noConfusion h
    · intro r w h; exact WriteOut.noConfusion h
    · intro n w h; exact WriteOut.noConfusion h
  | cons e es ih =>
    intro st hinv
    obtain ⟨hsum, hpos, hret, hw⟩ := hinv
    rw [writeLoop]
    by_cases ht : e.timedOut
    · rw [if_pos ht]
      have hw₁ : ∀ p ∈ st.writes ++ [fullData], p = fullData := by
        intro p hp
        rcases List.mem_append.mp hp with h | h
        · exact hw p h
        · simpa using List.mem_singleton.mp h
      by_cases hra : st.retries + 1 ≥ abortRetries
      · rw [if_pos hra]
        refine ⟨?_, ?_, ?_⟩
        · intro r w h; exact WriteOut.noConfusion h
        · intro r w h; exact WriteOut.noConfusion h
        · intro n w h
          obtain ⟨hn, hw'⟩ := WriteOut.aborted.inj h
          exact ⟨by omega, by rw [← hw']; exact hw₁⟩
      · rw [if_neg hra]
        have hinv₂ : WInv fullData abortRetries
            ⟨st.buffer ++ e.arrivals, st.result, st.size, st.retries + 1,
             st.writes ++ [fullData]⟩ := by
          unfold WInv
          dsimp only
          exact ⟨hsum, hpos, by omega, hw₁⟩
        have hphase := writeReadPhase_spec lastSent fullData abortRetries _ hinv₂
        cases hmatch : writeReadPhase lastSent fullData abortRetries
            ⟨st.buffer ++ e.arrivals, st.result, st.size, st.retries + 1,
             st.writes ++ [fullData]⟩ with
        | inl st₃ =>
          exact ih st₃ (hphase.1 st₃ hmatch)
        | inr out =>
          refine ⟨?_, ?_, ?_⟩
          · intro r w h
            have hout : out = .ok r w := h
            rw [hout] at hmatch
            exact hphase.2.2.1 r w hmatch
          · intro r w h
            have hout : out = .overRead r w := h
            rw [hout] at hmatch
            exact (hphase.2.1 r w) hmatch
          · intro n w h
            have hout : out = .aborted n w := h
            rw [hout] at hmatch
            exact hphase.2.2.2 n w hmatch
    · rw [if_neg ht]
      have hinv₁ : WInv fullData abortRetries
          ⟨st.buffer ++ e.arrivals, st.result, st.size, st.retries, st.writes⟩ := by
        unfold WInv
        dsimp only
        exact ⟨hsum, hpos, hret, hw⟩
      have hphase := writeReadPhase_spec lastSent fullData abortRetries _ hinv₁
      cases hmatch : writeReadPhase lastSent fullData abortRetries
          ⟨st.buffer ++ e.arrivals, st.result, st.size, st.retries, st.writes⟩ with
      | inl st₃ =>
        exact ih st₃ (hphase.1 st₃ hmatch)
      | inr out =>
        refine ⟨?_, ?_, ?_⟩
        · intro r w h
          have hout : out = .ok r w := h
          rw [hout] at hmatch
          exact hphase.2.2.1 r w hmatch
        · intro r w h
          have hout : out = .overRead r w := h
          rw [hout] at hmatch
          exact (hphase.2.1 r w) hmatch
        · intro n w h
          have hout : out = .aborted n w := h
          rw [hout] at hmatch
          exact hphase.2.2.2 n w hmatch

/-- C2: `write_insecure` returns successfully only on a 2-byte response
`[last_sent_packet, ACK]`; the `size < 0` bail-out is unreachable; every
packet it ever writes is the seq-prefixed payload; abortion happens exactly
at `abort_retries` failed attempts; and the seq counter advances by one
mod 256. -/
theorem c2_write_insecure (lastSentPrev : ℤ) (data buffer0 : List ℕ)
    (abortRetries : ℕ) (events : List WEvent) (hret : 0 < abortRetries) :
    (∀ r w, (writeInsecure lastSentPrev data abortRetries events buffer0).1 = .ok r w →
      r = [wSeq lastSentPrev, ACK] ∧ ∀ p ∈ w, p = wSeq lastSentPrev :: data) ∧
    (∀ r w, (writeInsecure lastSentPrev data abortRetries events buffer0).1 ≠
      .overRead r w) ∧
    (∀ n w, (writeInsecure lastSentPrev data abortRetries events buffer0).1 =
        .aborted n w →
      n = abortRetries ∧ ∀ p ∈ w, p = wSeq lastSentPrev :: data) ∧
    (∀ r0 r1 : ℕ, (r1 ≠ ACK ∨ r0 ≠ wSeq lastSentPrev) → 2 ≤ abortRetries →
      writeReadPhase (wSeq lastSentPrev) (wSeq lastSentPrev :: data) abortRetries
          ⟨[r0, r1], [], 2, 0, [wSeq lastSentPrev :: data]⟩ =
        .inl ⟨[], [r0, r1], 0, 1,
          [wSeq lastSentPrev :: data, wSeq lastSentPrev :: data]⟩) ∧
    (writeInsecure lastSentPrev data abortRetries events buffer0).2 =
      (lastSentPrev + 1) % 256 := by
  have hinv : WInv (wSeq lastSentPrev :: data) abortRetries
      ⟨buffer0, [], 2, 0, [wSeq lastSentPrev :: data]⟩ := by
    refine ⟨by simp, by simp, hret, ?_⟩
    intro p hp
    simpa using List.mem_singleton.mp hp
  have h := writeLoop_spec (wSeq lastSentPrev) (wSeq lastSentPrev :: data)
    abortRetries events ⟨buffer0, [], 2, 0, [wSeq lastSentPrev :: data]⟩ hinv
  refine ⟨h.1, h.2.1, h.2.2, ?_, rfl⟩
  intro r0 r1 hmis habort
  unfold writeReadPhase bufRead
  norm_num
  rw [if_pos hmis, if_neg (by omega)]
  simp

/-- Witness for `c2_write_insecure`: with a fresh counter (seq 0), one poll
delivering the exact response `[0, ACK]` makes the write succeed with that
confirmation. -/
theorem c2_write_insecure_witness :
    (writeInsecure (-1) [7] 5 [⟨false, [0, ACK]⟩] []).1 = .ok [0, ACK] [[0, 7]] ∧
    ([0, ACK] : List ℕ) = [wSeq (-1), ACK] ∧
    (∀ p ∈ [[0, 7]], p = wSeq (-1) :: [7]) ∧
    writeReadPhase (wSeq (-1)) (wSeq (-1) :: [7]) 5 ⟨[5, 9], [], 2, 0, [wSeq (-1) :: [7]]⟩ =
      .inl ⟨[], [5, 9], 0, 1, [wSeq (-1) :: [7], wSeq (-1) :: [7]]⟩ := by
  have happ := (c2_write_insecure (-1) [7] [] 5 [⟨false, [0, ACK]⟩] (by decide)).1
    [0, ACK] [[0, 7]] (by decide)
  have hretr := (c2_write_insecure (-1) [7] [] 5 [⟨false, [0, ACK]⟩] (by decide)).2.2.2.1
    5 9 (by decide) (by decide)
  exact ⟨by decide, happ.1, happ.2, hretr⟩

/-! ## Stream cipher (`src/cryptoec.py`)

`SymmetricKey.encrypt` returns `nonce + monocypher.chacha20(key, nonce,
data)` with an 8-byte little-endian nonce from a counter starting at 0;
`decrypt` strips the first 8 bytes as the nonce and deciphers the rest. -/

/-- 32-bit modular addition. -/
def add32 (a b : ℕ) : ℕ := (a + b) % 2 ^ 32

/-- 32-bit left rotation. -/
def rotl32 (x n : ℕ) : ℕ := ((x <<< n) % 2 ^ 32) ||| (x >>> (32 - n))

/-- ChaCha quarter round on state words `ia ib ic id`. -/
def qr (s : List ℕ) (ia ib ic id : ℕ) : List ℕ :=
  let a := add32 (s.getD ia 0) (s.getD ib 0)
  let d := rotl32 ((s.getD id 0) ^^^ a) 16
  let c := add32 (s.getD ic 0) d
  let b := rotl32 ((s.getD ib 0) ^^^ c) 12
  let a2 := add32 a b
  let d2 := rotl32 (d ^^^ a2) 8
  let c2 := add32 c d2
  let b2 := rotl32 (b ^^^ c2) 7
  (((s.set ia a2).set ib b2).set ic c2).set id d2

/-- One ChaCha double round (4 column + 4 diagonal quarter rounds). -/
def chachaDoubleRound (s : List ℕ) : List ℕ :=
  let s := qr s 0 4 8 12
  let s := qr s 1 5 9 13
  let s := qr s 2 6 10 14
  let s := qr s 3 7 11 15
  let s := qr s 0 5 10 15
  let s := qr s 1 6 11 12
  let s := qr s 2 7 8 13
  qr s 3 4 9 14

/-- The 20-round ChaCha permutation. -/
def chachaPermute (s : List ℕ) : List ℕ := chachaDoubleRound^[10] s

/-- Modelled from the spec: the initial ChaCha20 block state of the
external `monocypher.chacha20` primitive ("ChaCha20-style" stream cipher
with an 8-byte nonce and 64-bit block counter): four ASCII constants, the
256-bit key, the 64-bit counter and the 64-bit nonce, as little-endian
words. -/
def chachaInit (key nonce : List ℕ) (counter : ℕ) : List ℕ :=
  [0x61707865, 0x3320646e, 0x79622d32, 0x6b206574] ++
  (List.range 8).map (fun i => u32leVal (key.drop (4 * i))) ++
  [counter % 2 ^ 32, counter / 2 ^ 32 % 2 ^ 32, u32leVal nonce, u32leVal (nonce.drop 4)]

/-- One 64-byte ChaCha20 keystream block. -/
def chachaBlock (key nonce : List ℕ) (counter : ℕ) : List ℕ :=
  ((List.range 16).map (fun i =>
    u32le (add32 ((chachaPermute (chachaInit key nonce counter)).getD i 0)
      ((chachaInit key nonce counter).getD i 0)))).flatten

/-- The first `len` ChaCha20 keystream bytes. -/
def chachaKeystream (key nonce : List ℕ) (len : ℕ) : List ℕ :=
  (((List.range ((len + 63) / 64)).map (chachaBlock key nonce)).flatten).take len

/-- Modelled from the spec: `monocypher.chacha20(key, nonce, data)` (the
library itself is an external collaborator): a stream cipher, so the
output is the input XORed with the key/nonce-determined keystream. -/
def chacha20 (key nonce data : List ℕ) : List ℕ :=
  List.zipWith (· ^^^ ·) data (chachaKeystream key nonce data.length)

theorem join_map_length_const {α β : Type} (f : α → List β) (k : ℕ)
    (hf : ∀ x, (f x).length = k) :
    ∀ l : List α, ((l.map f).flatten).length = l.length * k := by
  intro l
  induction l with
  | nil => simp
  | cons x xs ih =>
    simp [ih, hf x]
    ring

theorem chachaBlock_length (key nonce : List ℕ) (counter : ℕ) :
    (chachaBlock key nonce counter).length = 64 := by
  unfold chachaBlock
  rw [show ((List.range 16).map fun i =>
      u32le (add32 ((chachaPermute (chachaInit key nonce counter)).getD i 0)
        ((chachaInit key nonce counter).getD i 0))) =
      (List.range 16).map ((fun b => u32le b) ∘ fun i =>
        add32 ((chachaPermute (chachaInit key nonce counter)).getD i 0)
          ((chachaInit key nonce counter).getD i 0)) from rfl]
  rw [← List.map_map]
  rw [join_map_length_const (fun b => u32le b) 4 (fun _ => rfl)]
  simp

theorem chachaKeystream_length (key nonce : List ℕ) (len : ℕ) :
    (chachaKeystream key nonce len).length = len := by
  unfold chachaKeystream
  rw [List.length_take,
    join_map_length_const (chachaBlock key nonce) 64 (chachaBlock_length key nonce)]
  simp
  omega

theorem chacha20_length (key nonce data : List ℕ) :
    (chacha20 key nonce data).length = data.length := by
  unfold chacha20
  rw [List.length_zipWith, chachaKeystream_length]
  simp

theorem zipWith_xor_cancel :
    ∀ d k : List ℕ, d.length ≤ k.length →
      List.zipWith (· ^^^ ·) (List.zipWith (· ^^^ ·) d k) k = d := by
  intro d
  induction d with
  | nil => intro k _; simp
  | cons x xs ih =>
    intro k hk
    cases k with
    | nil => simp at hk
    | cons y ys =>
      simp only [List.zipWith_cons_cons]
      rw [Nat.xor_assoc, Nat.xor_self, Nat.xor_zero, ih ys (by simpa using hk)]

/-- ChaCha20 is an involution: deciphering with the same key and nonce
recovers the plaintext. -/
theorem chacha20_involution (key nonce d : List ℕ) :
    chacha20 key nonce (chacha20 key nonce d) = d := by
  unfold chacha20
  rw [List.length_zipWith, chachaKeystream_length, min_self]
  exact zipWith_xor_cancel d (chachaKeystream key nonce d.length)
    (by rw [chachaKeystream_length])

/-- `SymmetricKey` (`cryptoec.py`): the 32-byte key plus the nonce counter
(`_nonce_counter`, 0 on construction). -/
structure SymmetricKey where
  key : List ℕ
  nonceCounter : ℕ
deriving DecidableEq

/-- `SymmetricKey.next_nonce`: `pack('<Q', counter)` then increment the
counter mod `256**8`. -/
def SymmetricKey.next_nonce (s : SymmetricKey) : List ℕ × SymmetricKey :=
  (u64le s.nonceCounter, ⟨s.key, (s.nonceCounter + 1) % 256 ^ 8⟩)

/-- `SymmetricKey.encrypt`: `nonce + chacha20(key, nonce, data)`. -/
def SymmetricKey.encrypt (s : SymmetricKey) (data : List ℕ) :
    List ℕ × SymmetricKey :=
  ((s.next_nonce).1 ++ chacha20 s.key (s.next_nonce).1 data, (s.next_nonce).2)

/-- `SymmetricKey.decrypt`: nonce = first 8 bytes, decipher the rest. -/
def SymmetricKey.decrypt (s : SymmetricKey) (data : List ℕ) : List ℕ :=
  chacha20 s.key (data.take 8) (data.drop 8)

theorem SymmetricKey.encrypt_length (s : SymmetricKey) (d : List ℕ) :
    (s.encrypt d).1.length = 8 + d.length := by
  unfold SymmetricKey.encrypt SymmetricKey.next_nonce
  simp [u64le, chacha20_length]
  omega

/-- Encrypt a list of messages in order, threading the key state;
returns the ciphertexts and the final key state. -/
def encryptAll (s : SymmetricKey) : List (List ℕ) → List (List ℕ) × SymmetricKey
  | [] => ([], s)
  | m :: ms =>
    ((s.encrypt m).1 :: (encryptAll (s.encrypt m).2 ms).1,
     (encryptAll (s.encrypt m).2 ms).2)

/-- The nonces emitted over a run: the 8-byte prefix of each ciphertext. -/
def sessionNonces (s : SymmetricKey) (ms : List (List ℕ)) : List (List ℕ) :=
  ((encryptAll s ms).1).map (List.take 8)

theorem encryptAll_nonces (ms : List (List ℕ)) :
    ∀ (k : List ℕ) (c : ℕ), c < 256 ^ 8 → c + ms.length ≤ 256 ^ 8 →
      sessionNonces ⟨k, c⟩ ms = (List.range ms.length).map (fun i => u64le (c + i)) ∧
      (encryptAll ⟨k, c⟩ ms).2.nonceCounter = (c + ms.length) % 256 ^ 8 := by
  induction ms with
  | nil =>
    intro k c hclt _
    refine ⟨rfl, ?_⟩
    simp only [encryptAll, List.length_nil, Nat.add_zero]
    omega
  | cons m ms ih =>
    intro k c hclt hc
    have henc : (SymmetricKey.encrypt ⟨k, c⟩ m).2 = ⟨k, (c + 1) % 256 ^ 8⟩ := rfl
    have htake : List.take 8 (SymmetricKey.encrypt ⟨k, c⟩ m).1 = u64le c := by
      unfold SymmetricKey.encrypt SymmetricKey.next_nonce
      simp [u64le]
    by_cases hlt : c + 1 < 256 ^ 8
    · have hmod : (c + 1) % 256 ^ 8 = c + 1 := Nat.mod_eq_of_lt hlt
      obtain ⟨ih1, ih2⟩ := ih k (c + 1) hlt (by simp at hc; omega)
      unfold sessionNonces at ih1 ⊢
      constructor
      · unfold encryptAll
        rw [List.map_cons, htake, henc, hmod, ih1]
        rw [List.length_cons, List.range_succ_eq_map, List.map_cons, List.map_map]
        congr 1
        apply List.map_congr_left
        intro a ha
        show u64le (c + 1 + a) = u64le (c + (a + 1))
        congr 1
        omega
      · unfold encryptAll
        rw [henc, hmod]
        dsimp only
        rw [ih2]
        simp only [List.length_cons]
        congr 1
        omega
    · -- the counter reaches 256^8: the hypothesis forces ms = []
      have hms : ms = [] := by
        cases ms with
        | nil => rfl
        | cons a l => simp at hc; omega
      subst hms
      have hceq : c + 1 = 256 ^ 8 := by omega
      constructor
      · unfold sessionNonces encryptAll
        rw [henc]
        unfold encryptAll
        simp [htake, List.range_succ]
      · unfold encryptAll
        rw [henc]
        unfold encryptAll
        simp

/-- C9: starting from a fresh key (counter 0), over any `n < 2⁶⁴`
encryptions the emitted nonces are exactly `u64le 0, …, u64le (n-1)`:
strictly increasing as 64-bit values, pairwise distinct, with the counter
left at `n`. -/
theorem c9_nonce_counter (k : List ℕ) (ms : List (List ℕ))
    (hn : ms.length < 256 ^ 8) :
    sessionNonces ⟨k, 0⟩ ms = (List.range ms.length).map u64le ∧
    List.Pairwise (fun a b => u64leVal a < u64leVal b) (sessionNonces ⟨k, 0⟩ ms) ∧
    (sessionNonces ⟨k, 0⟩ ms).Nodup ∧
    (encryptAll ⟨k, 0⟩ ms).2.nonceCounter = ms.length := by
  obtain ⟨h1, h2⟩ := encryptAll_nonces ms k 0 (by norm_num) (by omega)
  simp only [Nat.zero_add] at h1 h2
  have h1' : sessionNonces ⟨k, 0⟩ ms = (List.range ms.length).map u64le := by
    rw [h1]
  have hpair : List.Pairwise (fun a b => u64leVal a < u64leVal b)
      (sessionNonces ⟨k, 0⟩ ms) := by
    rw [h1', List.pairwise_map]
    have hbase : List.Pairwise (· < ·) (List.range ms.length) :=
      List.pairwise_lt_range ms.length
    refine hbase.imp_of_mem ?_
    intro i j hi hj hij
    rw [u64leVal_u64le i (by have := List.mem_range.mp hi; omega),
        u64leVal_u64le j (by have := List.mem_range.mp hj; omega)]
    exact hij
  have hnodup : (sessionNonces ⟨k, 0⟩ ms).Nodup := by
    refine hpair.imp ?_
    intro a b hab
    intro heq
    rw [heq] at hab
    exact lt_irrefl _ hab
  exact ⟨h1', hpair, hnodup, by rw [h2]; exact Nat.mod_eq_of_lt hn⟩

/-- Witness for `c9_nonce_counter`: two encryptions from a fresh key emit
nonces `u64le 0, u64le 1`. -/
theorem c9_nonce_counter_witness :
    ([[], [5]] : List (List ℕ)).length < 256 ^ 8 ∧
    sessionNonces ⟨[], 0⟩ [[], [5]] = (List.range 2).map u64le ∧
    (encryptAll ⟨[], 0⟩ [[], [5]]).2.nonceCounter = 2 := by
  have h := c9_nonce_counter [] [[], [5]] (by norm_num)
  exact ⟨by norm_num, h.1, h.2.2.2⟩

/-! ## C5 — `send` chunking (`alternative.py` lines 426-448)

`send` encrypts, prepends `pack('<I', len(encrypted_data))`, then splits
the blob into chunks of `chunk_size = chunk_size_max - nonce_size -
REDUNDANCY_SIZE = 140 - 8 - 6 = 126` with a `while len >= chunk_size`
loop plus a trailing partial chunk, and `write_insecure`s each chunk. -/

/-- `REDUNDANCY_SIZE` from `error_corrector.py`. -/
def REDUNDANCY_SIZE : ℕ := 6

/-- The chunk-splitting loop of `send`: full `chunkSize`-byte slices while
at least `chunkSize` bytes remain, then the non-empty remainder.  (The
source loop requires a positive chunk size to terminate; the guard's first
conjunct records that.) -/
def sendChunkSplit (chunkSize : ℕ) (B : List ℕ) : List (List ℕ) :=
  if h : 0 < chunkSize ∧ chunkSize ≤ B.length then
    B.take chunkSize :: sendChunkSplit chunkSize (B.drop chunkSize)
  else if 0 < B.length then [B] else []
termination_by B.length
decreasing_by simp [List.length_drop]; omega

theorem sendChunkSplit_cons (chunkSize : ℕ) (B : List ℕ) (h1 : 0 < chunkSize)
    (h2 : chunkSize ≤ B.length) :
    sendChunkSplit chunkSize B =
      B.take chunkSize :: sendChunkSplit chunkSize (B.drop chunkSize) := by
  rw [sendChunkSplit, dif_pos ⟨h1, h2⟩]

theorem sendChunkSplit_single (chunkSize : ℕ) (B : List ℕ)
    (h1 : B.length < chunkSize) (h2 : 0 < B.length) :
    sendChunkSplit chunkSize B = [B] := by
  rw [sendChunkSplit, dif_neg (by omega), if_pos h2]

theorem sendChunkSplit_nil (chunkSize : ℕ) (h1 : 0 < chunkSize) :
    sendChunkSplit chunkSize [] = [] := by
  rw [sendChunkSplit, dif_neg (by simp; omega)]
  simp

theorem sendChunkSplit_le (chunkSize : ℕ) (hcs : 0 < chunkSize) :
    ∀ (n : ℕ) (B : List ℕ), B.length ≤ n →
      ∀ c ∈ sendChunkSplit chunkSize B, c.length ≤ chunkSize := by
  intro n
  induction n with
  | zero =>
    intro B hB c hc
    have hnil : B = [] := List.length_eq_zero.mp (by omega)
    subst hnil
    rw [sendChunkSplit_nil chunkSize hcs] at hc
    simp at hc
  | succ n ih =>
    intro B hB c hc
    by_cases h2 : chunkSize ≤ B.length
    · rw [sendChunkSplit_cons chunkSize B hcs h2] at hc
      rcases List.mem_cons.mp hc with hc | hc
      · rw [hc]
        simp
      · exact ih (B.drop chunkSize) (by simp; omega) c hc
    · by_cases h3 : 0 < B.length
      · rw [sendChunkSplit_single chunkSize B (by omega) h3] at hc
        simp at hc
        rw [hc]
        omega
      · have hnil : B = [] := List.length_eq_zero.mp (by omega)
        subst hnil
        rw [sendChunkSplit_nil chunkSize hcs] at hc
        simp at hc

theorem sendChunkSplit_join (chunkSize : ℕ) (hcs : 0 < chunkSize) :
    ∀ (n : ℕ) (B : List ℕ), B.length ≤ n →
      (sendChunkSplit chunkSize B).flatten = B := by
  intro n
  induction n with
  | zero =>
    intro B hB
    have hnil : B = [] := List.length_eq_zero.mp (by omega)
    subst hnil
    rw [sendChunkSplit_nil chunkSize hcs]
    rfl
  | succ n ih =>
    intro B hB
    by_cases h2 : chunkSize ≤ B.length
    · rw [sendChunkSplit_cons chunkSize B hcs h2]
      rw [List.flatten]
      rw [ih (B.drop chunkSize) (by simp; omega)]
      exact List.take_append_drop chunkSize B
    · by_cases h3 : 0 < B.length
      · rw [sendChunkSplit_single chunkSize B (by omega) h3]
        simp
      · have hnil : B = [] := List.length_eq_zero.mp (by omega)
        subst hnil
        rw [sendChunkSplit_nil chunkSize hcs]
        rfl

/-- `ReliableTransceiver.send`: encrypt, length-prefix with
`pack('<I', len(encrypted_data))`, split into chunks (each then passed to
one `write_insecure` call).  Returns the chunk list and the new key
state. -/
def sessionSend (s : SymmetricKey) (origData : List ℕ) (chunkSizeMax : ℕ) :
    List (List ℕ) × SymmetricKey :=
  (sendChunkSplit (chunkSizeMax - 8 - REDUNDANCY_SIZE)
    (u32le (s.encrypt origData).1.length ++ (s.encrypt origData).1),
   (s.encrypt origData).2)

/-- C5: with the default `chunk_size_max = 140` every chunk is at most
`126 = 140 - 8 - 6` bytes and the chunks concatenate back to the blob;
for empty `M` the length prefix encodes 8 and exactly one 12-byte chunk is
sent; for a 200-byte `M` the 212-byte blob splits into exactly 2 chunks. -/
theorem c5_send_chunking (s : SymmetricKey) (M : List ℕ) :
    (∀ c ∈ (sessionSend s M 140).1, c.length ≤ 126) ∧
    ((sessionSend s M 140).1.flatten =
      u32le (8 + M.length) ++ (s.encrypt M).1) ∧
    (M = [] →
      (sessionSend s M 140).1 = [u32le 8 ++ (s.encrypt []).1] ∧
      (sessionSend s M 140).1.map List.length = [12]) ∧
    (M.length = 200 → (sessionSend s M 140).1.length = 2) := by
  have hlen : (s.encrypt M).1.length = 8 + M.length := s.encrypt_length M
  have hblob : (u32le (s.encrypt M).1.length ++ (s.encrypt M).1).length =
      12 + M.length := by
    rw [List.length_append, u32le_length, hlen]
    omega
  refine ⟨?_, ?_, ?_, ?_⟩
  · intro c hc
    exact sendChunkSplit_le 126 (by norm_num) _ _ le_rfl c hc
  · unfold sessionSend
    rw [show (140 : ℕ) - 8 - REDUNDANCY_SIZE = 126 from rfl]
    rw [sendChunkSplit_join 126 (by norm_num) _ _ le_rfl, hlen]
  · intro hM
    subst hM
    have h8 : (s.encrypt []).1.length = 8 := by rw [hlen]; rfl
    unfold sessionSend
    rw [show (140 : ℕ) - 8 - REDUNDANCY_SIZE = 126 from rfl, h8]
    rw [sendChunkSplit_single 126 _
      (by rw [List.length_append, u32le_length, h8]; omega)
      (by rw [List.length_append, u32le_length, h8]; omega)]
    constructor
    · rfl
    · simp [List.length_append, u32le_length, h8]
  · intro hM
    unfold sessionSend
    rw [show (140 : ℕ) - 8 - REDUNDANCY_SIZE = 126 from rfl]
    have hb : (u32le (s.encrypt M).1.length ++ (s.encrypt M).1).length = 212 := by
      rw [hblob, hM]
    rw [sendChunkSplit_cons 126 _ (by norm_num) (by rw [hb]; norm_num)]
    rw [sendChunkSplit_single 126 _ (by rw [List.length_drop, hb]; norm_num)
      (by rw [List.length_drop, hb]; norm_num)]
    rfl

/-- Witness for `c5_send_chunking`: the empty-message and 200-byte cases
at a concrete key. -/
theorem c5_send_chunking_witness :
    ((sessionSend ⟨[], 0⟩ [] 140).1 = [u32le 8 ++ (SymmetricKey.encrypt ⟨[], 0⟩ []).1] ∧
     (sessionSend ⟨[], 0⟩ [] 140).1.map List.length = [12]) ∧
    (sessionSend ⟨[], 0⟩ (List.replicate 200 3) 140).1.length = 2 :=
  ⟨(c5_send_chunking ⟨[], 0⟩ []).2.2.1 rfl,
   (c5_send_chunking ⟨[], 0⟩ (List.replicate 200 3)).2.2.2 (by
     rw [List.length_replicate])⟩

/-! ## C3 — `receive` (`alternative.py` lines 450-474) over an idealized
lossless channel

The claim postulates an idealized lossless channel: every chunk written by
`send` arrives, in order, so the receiver's input buffer holds the
concatenation of the sent chunks and each `read_insecure(n, …)` call
delivers the next `n` bytes of it. -/

/-- `read_insecure` over the idealized lossless channel: a read of `n`
bytes returns the next `n` bytes and the remaining stream (`none` when the
stream is too short, i.e. the real code would keep polling). -/
def readExact (stream : List ℕ) (n : ℕ) : Option (List ℕ × List ℕ) :=
  if n ≤ stream.length then some (stream.take n, stream.drop n) else none

/-- The `while left_size > 0` reassembly loop of `receive` (lines 466-469):
read `min(left_size, chunk_size)` bytes per iteration and append to
`cipher_buffer`.  `fuel` bounds the iteration count of the source's
unbounded loop; each iteration reads at least one byte, so `left + 1`
iterations always suffice. -/
def recvLoop (chunkSize : ℕ) : (fuel left : ℕ) → List ℕ → List ℕ → Option (List ℕ)
  | _, 0, _, acc => some acc
  | 0, _ + 1, _, _ => none
  | fuel + 1, left + 1, stream, acc =>
    match readExact stream (min (left + 1) chunkSize) with
    | none => none
    | some (d, rest) => recvLoop chunkSize fuel (left + 1 - d.length) rest (acc ++ d)

/-- `ReliableTransceiver.receive`: wait for at least 12 buffered bytes,
read `min(len(input_buffer) - 1, chunk_size)` bytes, parse the 4-byte
length prefix, keep reading until `size` ciphertext bytes are collected,
then decrypt.  `left_size = size - len(cipher_buffer)` is a Python `int`;
a non-positive value skips the loop, which ℕ subtraction models. -/
def sessionReceive (s : SymmetricKey) (B : List ℕ) (chunkSize : ℕ) :
    Option (List ℕ) :=
  if B.length < 12 then none
  else
    match readExact B (min (B.length - 1) chunkSize) with
    | none => none
    | some (data, rest) =>
      (recvLoop chunkSize (u32leVal (data.take 4) + 1)
        (u32leVal (data.take 4) - (data.drop 4).length) rest
        (data.drop 4)).map s.decrypt

theorem recvLoop_exact (chunkSize : ℕ) (hch : 0 < chunkSize) :
    ∀ (fuel left : ℕ) (stream acc : List ℕ), left ≤ fuel →
      left ≤ stream.length →
      recvLoop chunkSize fuel left stream acc = some (acc ++ stream.take left) := by
  intro fuel
  induction fuel with
  | zero =>
    intro left stream acc h1 _
    have : left = 0 := by omega
    subst this
    simp [recvLoop]
  | succ fuel ih =>
    intro left stream acc h1 h2
    match left with
    | 0 => simp [recvLoop]
    | l + 1 =>
      rw [recvLoop]
      have hmle : min (l + 1) chunkSize ≤ stream.length := by omega
      unfold readExact
      rw [if_pos hmle]
      have hm1 : 1 ≤ min (l + 1) chunkSize := by omega
      have hdl : (stream.take (min (l + 1) chunkSize)).length =
          min (l + 1) chunkSize := by
        rw [List.length_take]
        omega
      simp only [hdl]
      rw [ih (l + 1 - min (l + 1) chunkSize) (stream.drop (min (l + 1) chunkSize))
        (acc ++ stream.take (min (l + 1) chunkSize)) (by omega)
        (by rw [List.length_drop]; omega)]
      rw [List.append_assoc, ← List.take_add,
        show min (l + 1) chunkSize + (l + 1 - min (l + 1) chunkSize) = l + 1 by omega]

/-- C3: over the idealized lossless channel, `receive` applied to the
concatenation of the chunks produced by `send` returns exactly the original
plaintext (any receiver-side key object with the same 32 key bytes). -/
theorem c3_send_receive_round_trip (k : List ℕ) (c c2 : ℕ) (M : List ℕ)
    (h : 8 + M.length < 256 ^ 4) :
    sessionReceive ⟨k, c2⟩ ((sessionSend ⟨k, c⟩ M 140).1.flatten) 126 = some M := by
  have hPlen : (SymmetricKey.encrypt ⟨k, c⟩ M).1.length = 8 + M.length :=
    SymmetricKey.encrypt_length _ M
  have hflat : (sessionSend ⟨k, c⟩ M 140).1.flatten =
      u32le (SymmetricKey.encrypt ⟨k, c⟩ M).1.length ++ (SymmetricKey.encrypt ⟨k, c⟩ M).1 := by
    unfold sessionSend
    rw [show (140 : ℕ) - 8 - REDUNDANCY_SIZE = 126 from rfl]
    exact sendChunkSplit_join 126 (by norm_num) _ _ le_rfl
  rw [hflat]
  generalize hP : (SymmetricKey.encrypt ⟨k, c⟩ M).1 = P at *
  have hBlen : (u32le P.length ++ P).length = 12 + M.length := by
    rw [List.length_append, u32le_length, hPlen]
    omega
  unfold sessionReceive
  rw [if_neg (by omega)]
  have hn1le : min ((u32le P.length ++ P).length - 1) 126 ≤
      (u32le P.length ++ P).length := by omega
  have h4 : 4 ≤ min ((u32le P.length ++ P).length - 1) 126 := by
    rw [hBlen]
    omega
  unfold readExact
  rw [if_pos hn1le]
  simp only
  generalize hn1 : min ((u32le P.length ++ P).length - 1) 126 = n1 at *
  have hn1le' : n1 ≤ 11 + M.length := by omega
  -- the 4-byte length prefix
  have htake4 : ((u32le P.length ++ P).take n1).take 4 = u32le P.length := by
    rw [List.take_take, min_eq_left h4, ← u32le_length P.length, List.take_left]
  have hsize : u32leVal (((u32le P.length ++ P).take n1).take 4) = P.length := by
    rw [htake4, u32leVal_u32le]
    rw [hPlen]
    exact h
  -- the ciphertext read so far
  have hcip : ((u32le P.length ++ P).take n1).drop 4 = P.take (n1 - 4) := by
    rw [List.drop_take, ← u32le_length P.length, List.drop_left]
  have hciplen : (((u32le P.length ++ P).take n1).drop 4).length = n1 - 4 := by
    rw [hcip, List.length_take]
    rw [hPlen]
    omega
  -- the unread remainder
  have hrest : (u32le P.length ++ P).drop n1 = P.drop (n1 - 4) := by
    have hsplit : (u32le P.length ++ P).drop n1 =
        ((u32le P.length ++ P).drop 4).drop (n1 - 4) := by
      rw [List.drop_drop]
      congr 1
      omega
    rw [hsplit, ← u32le_length P.length, List.drop_left, u32le_length]
  have hrestlen : ((u32le P.length ++ P).drop n1).length = P.length - (n1 - 4) := by
    rw [hrest, List.length_drop]
  rw [hsize, hciplen, hcip, hrest]
  rw [recvLoop_exact 126 (by norm_num) (P.length + 1) (P.length - (n1 - 4))
    (P.drop (n1 - 4)) (P.take (n1 - 4)) (by omega)
    (by rw [List.length_drop])]
  have hdropfull : (P.drop (n1 - 4)).take (P.length - (n1 - 4)) = P.drop (n1 - 4) :=
    List.take_of_length_le (by rw [List.length_drop])
  rw [hdropfull, List.take_append_drop (n1 - 4) P]
  show some (SymmetricKey.decrypt ⟨k, c2⟩ P) = some M
  congr 1
  -- decryption inverts encryption
  rw [← hP]
  unfold SymmetricKey.decrypt SymmetricKey.encrypt SymmetricKey.next_nonce
  simp only
  rw [show (8 : ℕ) = (u64le c).length from (u64le_length c).symm,
    List.take_left, List.drop_left]
  exact chacha20_involution k (u64le c) M

/-- Witness for `c3_send_receive_round_trip`: a concrete 3-byte message
round-trips through send and receive. -/
theorem c3_send_receive_round_trip_witness :
    8 + ([1, 2, 3] : List ℕ).length < 256 ^ 4 ∧
    sessionReceive ⟨[], 7⟩ ((sessionSend ⟨[], 0⟩ [1, 2, 3] 140).1.flatten) 126 =
      some [1, 2, 3] :=
  ⟨by norm_num, c3_send_receive_round_trip [] 0 7 [1, 2, 3] (by norm_num)⟩

/-! ## C6 — Reed–Solomon wrapping (`src/error_corrector.py`)

`ErrorCorrector` constructs `reedsolo.RSCodec(REDUNDANCY_SIZE,
EC_BLOCK_SIZE + REDUNDANCY_SIZE)`, i.e. `nsym = 6` parity bytes per
encoded block and `nsize = 22` bytes per encoded block, so each block
carries `nsize − nsym = 16` data bytes.  The reedsolo library is an
external collaborator; its documented `encode` is modelled: split the data
into `nsize − nsym`-byte chunks and append to each the `nsym` parity bytes
computed by synthetic division over GF(2⁸) (primitive polynomial `0x11d`,
generator 2). -/

def EC_BLOCK_SIZE : ℕ := 16

/-- Multiply by the generator α = 2 in GF(2⁸) with reedsolo's default
primitive polynomial `0x11d` (the step that builds `gf_exp`). -/
def gfDouble (x : ℕ) : ℕ :=
  if x * 2 ≥ 256 then (x * 2) ^^^ 0x11d else x * 2

/-- `gf_exp[i]` = α^i; the index wraps at 255 exactly as the duplicated
512-entry table does. -/
def gfExp (i : ℕ) : ℕ := (gfDouble^[i % 255]) 1

/-- `gf_log[x]`: the discrete log of `x` base α (never consulted at 0 on
the encode path). -/
def gfLog (x : ℕ) : ℕ := (List.range 255).findIdx (fun i => gfExp i = x)

/-- `gf_mul` through the exp/log tables. -/
def gfMul (x y : ℕ) : ℕ :=
  if x = 0 ∨ y = 0 then 0 else gfExp (gfLog x + gfLog y)

/-- `gf_poly_mul`: convolution over GF(2⁸) with XOR accumulation. -/
def gfPolyMul (p q : List ℕ) : List ℕ :=
  (List.range (p.length + q.length - 1)).map (fun k =>
    (List.range (k + 1)).foldl (fun acc i =>
      acc ^^^ gfMul (p.getD i 0) (q.getD (k - i) 0)) 0)

/-- `rs_generator_poly(nsym)` = ∏_{i<nsym} (x + α^i). -/
def rsGeneratorPoly (nsym : ℕ) : List ℕ :=
  (List.range nsym).foldl (fun g i => gfPolyMul g [1, gfExp i]) [1]

theorem gfPolyMul_length (p q : List ℕ) :
    (gfPolyMul p q).length = p.length + q.length - 1 := by
  unfold gfPolyMul
  simp

theorem rsGeneratorPoly_length (nsym : ℕ) :
    (rsGeneratorPoly nsym).length = nsym + 1 := by
  unfold rsGeneratorPoly
  induction nsym with
  | zero => rfl
  | succ n ih =>
    rw [List.range_succ, List.foldl_append, List.foldl_cons, List.foldl_nil,
      gfPolyMul_length, ih]
    simp only [List.length_cons, List.length_nil]
    omega

/-- One step of `rs_encode_msg`'s synthetic division: when the current
leading coefficient is non-zero, XOR `gen[j]·coef` into position `i+j` for
`j = 1, …, len(gen)−1`. -/
def rsDivStep (gen : List ℕ) (st : List ℕ) (i : ℕ) : List ℕ :=
  if st.getD i 0 ≠ 0 then
    (List.range (gen.length - 1)).foldl
      (fun s j =>
        s.set (i + j + 1) (s.getD (i + j + 1) 0 ^^^ gfMul (gen.getD (j + 1) 0) (st.getD i 0)))
      st
  else st

theorem foldl_length_inv {β : Type} (f : List ℕ → β → List ℕ)
    (hf : ∀ s b, (f s b).length = s.length) :
    ∀ (l : List β) (s : List ℕ), (l.foldl f s).length = s.length := by
  intro l
  induction l with
  | nil => intro s; rfl
  | cons b bs ih =>
    intro s
    rw [List.foldl_cons, ih (f s b), hf s b]

theorem rsDivStep_length (gen st : List ℕ) (i : ℕ) :
    (rsDivStep gen st i).length = st.length := by
  unfold rsDivStep
  split
  · exact foldl_length_inv _ (fun s b => List.length_set s _ _) _ st
  · rfl

/-- `rs_encode_msg(msg, 6)`: synthetic division of `msg·x⁶` by the degree-6
generator; the final `msg_out[:len(msg_in)] = msg_in` makes the result the
message followed by the 6 remainder bytes. -/
def rsEncodeMsg (msg : List ℕ) : List ℕ :=
  msg ++ ((List.range msg.length).foldl (rsDivStep (rsGeneratorPoly 6))
    (msg ++ List.replicate 6 0)).drop msg.length

theorem rsEncodeMsg_length (msg : List ℕ) :
    (rsEncodeMsg msg).length = msg.length + 6 := by
  unfold rsEncodeMsg
  rw [List.length_append, List.length_drop,
    foldl_length_inv _ (rsDivStep_length (rsGeneratorPoly 6)) _ _,
    List.length_append, List.length_replicate]
  omega

/-- `RSCodec(6, 22).encode`: split the data into `nsize − nsym = 16`-byte
chunks, RS-encode each, concatenate. -/
def rsCodecEncode (data : List ℕ) : List ℕ :=
  ((sendChunkSplit (EC_BLOCK_SIZE + REDUNDANCY_SIZE - REDUNDANCY_SIZE) data).map
    rsEncodeMsg).flatten

/-- `ErrorCorrector(data).encode()`, as applied by
`AlternativeStream._encode_data` to every DATA payload before modulation. -/
def ecEncode (data : List ℕ) : List ℕ := rsCodecEncode data

theorem flatten_map_length_add (f : List ℕ → List ℕ) (k : ℕ)
    (hf : ∀ c, (f c).length = c.length + k) :
    ∀ chunks : List (List ℕ),
      ((chunks.map f).flatten).length = (chunks.flatten).length + k * chunks.length := by
  intro chunks
  induction chunks with
  | nil => rfl
  | cons c cs ih =>
    simp only [List.map_cons, List.flatten_cons, List.length_append, ih, hf c,
      List.length_cons]
    ring

theorem sendChunkSplit_count (chunkSize : ℕ) (hcs : 0 < chunkSize) :
    ∀ (n : ℕ) (B : List ℕ), B.length ≤ n →
      (sendChunkSplit chunkSize B).length = (B.length + chunkSize - 1) / chunkSize := by
  intro n
  induction n with
  | zero =>
    intro B hB
    have hnil : B = [] := List.length_eq_zero.mp (by omega)
    subst hnil
    rw [sendChunkSplit_nil chunkSize hcs, List.length_nil]
    symm
    exact Nat.div_eq_of_lt (by omega)
  | succ n ih =>
    intro B hB
    by_cases h2 : chunkSize ≤ B.length
    · rw [sendChunkSplit_cons chunkSize B hcs h2, List.length_cons,
        ih (B.drop chunkSize) (by simp; omega), List.length_drop]
      have hsplit : B.length + chunkSize - 1 = (B.length - chunkSize + chunkSize - 1) + chunkSize := by
        omega
      rw [hsplit, Nat.add_div_right _ hcs]
    · by_cases h3 : 0 < B.length
      · rw [sendChunkSplit_single chunkSize B (by omega) h3]
        rw [List.length_cons, List.length_nil]
        symm
        exact Nat.div_eq_of_lt_le (by omega) (by omega)
      · have hnil : B = [] := List.length_eq_zero.mp (by omega)
        subst hnil
        rw [sendChunkSplit_nil chunkSize hcs, List.length_nil]
        symm
        exact Nat.div_eq_of_lt (by omega)

/-- C6 counterexample: an 11-byte DATA payload FEC-encodes to 17 wire
bytes (one block of 11 data + 6 parity), not the 23 = 11 + 6·⌈11/10⌉ the
claim's K = 10 geometry would give. -/
theorem c6_fec_block_counterexample :
    (ecEncode (List.replicate 11 0)).length = 17 ∧
    (List.replicate 11 0).length + 6 * (((List.replicate 11 0).length + 10 - 1) / 10) = 23 ∧
    (17 : ℕ) ≠ 23 := by
  refine ⟨?_, by decide, by decide⟩
  have hsplit : sendChunkSplit 16 (List.replicate 11 0) = [List.replicate 11 0] :=
    sendChunkSplit_single 16 _ (by simp) (by simp)
  show (((sendChunkSplit 16 (List.replicate 11 0)).map rsEncodeMsg).flatten).length = 17
  rw [hsplit]
  simp [rsEncodeMsg_length]

/-- C6 amended: every DATA payload is FEC-encoded by `ErrorCorrector` as
blocks of at most 16 data bytes (`nsize − nsym = 22 − 6`) plus 6 parity
bytes, so an n-byte payload encodes to `n + 6·⌈n/16⌉` wire bytes. -/
theorem c6_fec_block_geometry (data : List ℕ) :
    ecEncode data = ((sendChunkSplit 16 data).map rsEncodeMsg).flatten ∧
    (∀ chunk ∈ sendChunkSplit 16 data,
      chunk.length ≤ 16 ∧
      (rsEncodeMsg chunk).length = chunk.length + 6 ∧
      (rsEncodeMsg chunk).take chunk.length = chunk) ∧
    (ecEncode data).length = data.length + 6 * ((data.length + 16 - 1) / 16) := by
  refine ⟨rfl, ?_, ?_⟩
  · intro chunk hc
    refine ⟨sendChunkSplit_le 16 (by norm_num) data.length data le_rfl chunk hc,
      rsEncodeMsg_length chunk, ?_⟩
    unfold rsEncodeMsg
    rw [List.take_left]
  · show (((sendChunkSplit 16 data).map rsEncodeMsg).flatten).length = _
    rw [flatten_map_length_add rsEncodeMsg 6 rsEncodeMsg_length,
      sendChunkSplit_join 16 (by norm_num) data.length data le_rfl,
      sendChunkSplit_count 16 (by norm_num) data.length data le_rfl]

/-- Witness for `c6_fec_block_geometry`: a 20-byte payload is split into a
16-byte block and a 4-byte block and encodes to 32 = 20 + 6·2 bytes. -/
theorem c6_fec_block_geometry_witness :
    List.replicate 16 0 ∈ sendChunkSplit 16 (List.replicate 20 0) ∧
    (rsEncodeMsg (List.replicate 16 0)).length = (List.replicate 16 0).length + 6 ∧
    (ecEncode (List.replicate 20 0)).length = 20 + 6 * ((20 + 16 - 1) / 16) := by
  have h := c6_fec_block_geometry (List.replicate 20 0)
  have hsplit : sendChunkSplit 16 (List.replicate 20 0) =
      [List.replicate 16 0, List.replicate 4 0] := by
    rw [sendChunkSplit_cons 16 _ (by norm_num) (by simp)]
    rw [List.take_replicate, List.drop_replicate]
    norm_num
    exact sendChunkSplit_single 16 _ (by simp) (by simp)
  have hmem : List.replicate 16 0 ∈ sendChunkSplit 16 (List.replicate 20 0) := by
    rw [hsplit]
    simp
  exact ⟨hmem, (h.2.1 _ hmem).2.1, h.2.2⟩

/-! ## C8 — hello-phase mismatches (`key_exchange_sender/receiver`,
`alternative.py` lines 563-620)

The hello-phase value checks are bare Python `assert` statements
(lines 579, 605, 613).  A failing `assert` raises `AssertionError`, which
is not `ConnectionAbortedError`; the top-level loops in `sender()` and
`receiver()` (lines 659-663, 681-685) and the `connect` read (lines
633-637) catch only `ConnectionAbortedError`. -/

inductive PyExc where
  | connectionAbortedError
  | assertionError
deriving DecidableEq

/-- `b'Hello'`. -/
def helloBytes : List ℕ := [0x48, 0x65, 0x6c, 0x6c, 0x6f]

/-- `b'Hi'`. -/
def hiBytes : List ℕ := [0x48, 0x69]

/-- `assert decrypted == b'Hello'` in `key_exchange_receiver` (line 605). -/
def helloCheckReceiver (decrypted : List ℕ) : Except PyExc Unit :=
  if decrypted = helloBytes then .ok () else .error .assertionError

/-- `assert decrypted == b'Hi'` in `key_exchange_sender` (line 579). -/
def hiCheckSender (decrypted : List ℕ) : Except PyExc Unit :=
  if decrypted = hiBytes then .ok () else .error .assertionError

/-- `assert struct.unpack('<B', plaintext)[0] == self.ACK` in
`key_exchange_receiver` (line 613). -/
def ackCheckReceiver (plaintext : List ℕ) : Except PyExc Unit :=
  if plaintext.getD 0 0 = ACK then .ok () else .error .assertionError

/-- The exception class the top-level connect loops catch
(`except ConnectionAbortedError`). -/
def connectLoopCatches : PyExc → Bool
  | .connectionAbortedError => true
  | .assertionError => false

/-- C8 counterexample: a wrong hello plaintext makes the receiver's check
raise `AssertionError`, which is not `ConnectionAbortedError` and is not
caught by the top-level connect loop — refuting the claim that the
failure surfaces as `ConnectionAborted`. -/
theorem c8_hello_mismatch_counterexample :
    helloCheckReceiver [0x48, 0x75, 0x6c, 0x6c, 0x6f] = .error .assertionError ∧
    connectLoopCatches .assertionError = false ∧
    PyExc.assertionError ≠ PyExc.connectionAbortedError := by
  refine ⟨rfl, rfl, by decide⟩

/-- C8 amended: any hello-phase plaintext differing from its expected
fixed value (`b'Hello'` at the receiver, `b'Hi'` at the sender, the single
ACK byte at the receiver) makes the session fail via a failed `assert`
raising `AssertionError` — an exception the top-level connect loop does
not catch (it catches only `ConnectionAbortedError`). -/
theorem c8_hello_mismatch_aborts (d e p : List ℕ) :
    (d ≠ helloBytes → helloCheckReceiver d = .error .assertionError) ∧
    (e ≠ hiBytes → hiCheckSender e = .error .assertionError) ∧
    (p.getD 0 0 ≠ ACK → ackCheckReceiver p = .error .assertionError) ∧
    connectLoopCatches .assertionError = false ∧
    PyExc.assertionError ≠ PyExc.connectionAbortedError := by
  refine ⟨?_, ?_, ?_, rfl, by decide⟩
  · intro hd
    unfold helloCheckReceiver
    rw [if_neg hd]
  · intro he
    unfold hiCheckSender
    rw [if_neg he]
  · intro hp
    unfold ackCheckReceiver
    rw [if_neg hp]

/-- Witness for `c8_hello_mismatch_aborts` at concrete wrong plaintexts. -/
theorem c8_hello_mismatch_aborts_witness :
    helloCheckReceiver [1] = .error .assertionError ∧
    hiCheckSender [2] = .error .assertionError ∧
    ackCheckReceiver [9] = .error .assertionError := by
  have h := c8_hello_mismatch_aborts [1] [2] [9]
  exact ⟨h.1 (by decide), h.2.1 (by decide), h.2.2.1 (by decide)⟩

end SoundComm
